import Mathlib

/-!
Shallow embedding of the Student Roster Data Store of
`Assessment_1/03_student_manager.py`.

Python text (`str`) is modelled as `List Char`; Python `int` as `Int`
(arbitrary precision, as in Python).  The Python float `percent` is
modelled as an exact rational `ℚ`: the source computes
`(total / 160) * 100.0` in IEEE doubles, and for every integer `total`
in (far beyond) the documented 0–160 range the double computation
agrees with the exact rational on every comparison used by the program
(grade thresholds and sort order), so the rational model is
comparison-faithful.  Unicode-only corner cases of Python's `str`
methods (non-ASCII digits for `isdigit`/`int`, exotic Unicode spaces
for `strip`, and ` `-style separators beyond the listed ones) are
out of scope; the ASCII/Latin-1 behaviour is modelled exactly.
-/

namespace StudentManager

/-- Characters removed by Python `str.strip()` (ASCII/Latin-1 whitespace). -/
def pyIsSpace (c : Char) : Bool :=
  c.toNat == 9 || c.toNat == 10 || c.toNat == 11 || c.toNat == 12 || c.toNat == 13 ||
  (28 ≤ c.toNat && c.toNat ≤ 32) || c.toNat == 133 || c.toNat == 160

/-- Line boundaries recognised by Python `str.splitlines()`. -/
def isLineBreak (c : Char) : Bool :=
  c.toNat == 10 || c.toNat == 11 || c.toNat == 12 || c.toNat == 13 ||
  c.toNat == 28 || c.toNat == 29 || c.toNat == 30 || c.toNat == 133 ||
  c.toNat == 8232 || c.toNat == 8233

/-- Python `str.strip()`: drop leading and trailing whitespace. -/
def pyStrip (l : List Char) : List Char :=
  ((l.dropWhile pyIsSpace).reverse.dropWhile pyIsSpace).reverse

/-- Worker for `pySplitlines`; `acc` holds the current line reversed. -/
def splitlinesGo : List Char → List Char → List (List Char)
  | [], acc => if acc.isEmpty then [] else [acc.reverse]
  | '\r' :: '\n' :: rest, acc => acc.reverse :: splitlinesGo rest []
  | c :: rest, acc =>
    if isLineBreak c then acc.reverse :: splitlinesGo rest []
    else splitlinesGo rest (c :: acc)

/-- Python `str.splitlines()`: `\r\n` counts as a single boundary and a
trailing boundary produces no final empty line. -/
def pySplitlines (l : List Char) : List (List Char) := splitlinesGo l []

/-- Python `str.split(sep)` for a one-character separator. -/
def splitOnChar (sep : Char) : List Char → List (List Char)
  | [] => [[]]
  | c :: rest =>
    match splitOnChar sep rest with
    | [] => [[]]
    | p :: ps => if c == sep then [] :: p :: ps else (c :: p) :: ps

/-- Python `str.isdigit()` (ASCII digits). -/
def pyIsdigit (l : List Char) : Bool := !l.isEmpty && l.all Char.isDigit

/-- Numeric value of a big-endian ASCII digit string. -/
def digitsToNat (l : List Char) : Nat :=
  l.foldl (fun a c => 10 * a + (c.toNat - 48)) 0

/-- No two adjacent underscores. -/
def noDoubleUnderscore : List Char → Bool
  | [] => true
  | c :: rest =>
    (match rest with
     | [] => true
     | d :: _ => !(c == '_' && d == '_')) && noDoubleUnderscore rest

/-- Digit-group validity for Python `int()`: nonempty, digits possibly
separated by single underscores, and an underscore never first, last or
doubled. -/
def uDigitsValid (l : List Char) : Bool :=
  !l.isEmpty &&
  l.all (fun c => c.isDigit || c == '_') &&
  (match l.head? with | some c => c.isDigit | none => false) &&
  (match l.getLast? with | some c => c.isDigit | none => false) &&
  noDoubleUnderscore l

/-- Python `int(s)` on text: strip, optional sign, digit group
(underscore separators allowed); `none` models the `ValueError`. -/
def pythonInt (s : List Char) : Option Int :=
  match pyStrip s with
  | [] => none
  | c :: rest =>
    if c == '+' then
      if uDigitsValid rest then
        some (Int.ofNat (digitsToNat (rest.filter (fun x => !(x == '_'))))) else none
    else if c == '-' then
      if uDigitsValid rest then
        some (-(Int.ofNat (digitsToNat (rest.filter (fun x => !(x == '_')))))) else none
    else
      if uDigitsValid (c :: rest) then
        some (Int.ofNat (digitsToNat ((c :: rest).filter (fun x => !(x == '_'))))) else none

/-- Little-endian decimal digits of `n`, with enough fuel (`fuel ≥ n`). -/
def digitsRevFuel : Nat → Nat → List Char
  | 0, _ => []
  | fuel + 1, n =>
    if n = 0 then [] else Char.ofNat (48 + n % 10) :: digitsRevFuel fuel (n / 10)

/-- Python `str(n)` for a natural number. -/
def natToChars (n : Nat) : List Char :=
  if n = 0 then ['0'] else (digitsRevFuel n n).reverse

/-- Python `str(i)` for an integer. -/
def intToChars (i : Int) : List Char :=
  if i < 0 then '-' :: natToChars (-i).toNat else natToChars i.toNat

/-- Python `"\n".join(lines)`. -/
def joinLines : List (List Char) → List Char
  | [] => []
  | [l] => l
  | l :: ls => l ++ '\n' :: joinLines ls

/-- The `Student` dataclass: raw stored fields. -/
structure Student where
  code : Int
  name : List Char
  cw1 : Int
  cw2 : Int
  cw3 : Int
  exam : Int
deriving DecidableEq

/-- Derived property `cw_total` (out of 60). -/
def Student.cw_total (s : Student) : Int := s.cw1 + s.cw2 + s.cw3

/-- Derived property `total` (out of 160). -/
def Student.total (s : Student) : Int := s.cw_total + s.exam

/-- Derived property `percent = (total / 160) * 100.0` (see the float note above). -/
def Student.percent (s : Student) : ℚ := ((s.total : ℚ) / 160) * 100

/-- Derived property `grade`: fixed thresholds on `percent`. -/
def Student.grade (s : Student) : String :=
  if 70 ≤ s.percent then "A"
  else if 60 ≤ s.percent then "B"
  else if 50 ≤ s.percent then "C"
  else if 40 ≤ s.percent then "D"
  else "F"

/-- One data line of `load_students`: split on commas, strip each field,
require exactly 6 fields, parse the four score fields and the code as
integers; any failure skips the line (`none`). -/
def parseDataLine (line : List Char) : Option Student :=
  match (splitOnChar ',' line).map pyStrip with
  | [p0, p1, p2, p3, p4, p5] =>
    match pythonInt p0, pythonInt p2, pythonInt p3, pythonInt p4, pythonInt p5 with
    | some code, some c1, some c2, some c3, some ex => some ⟨code, p1, c1, c2, c3, ex⟩
    | _, _, _, _, _ => none
  | _ => none

/-- The `for i, line in enumerate(...)` loop body of `load_students`:
strip, skip blanks, skip the leading count line (index 0, all digits,
no comma), otherwise parse-or-skip. -/
def loadLinesFrom : Nat → List (List Char) → List Student
  | _, [] => []
  | i, raw :: rest =>
    let line := pyStrip raw
    if line.isEmpty then loadLinesFrom (i + 1) rest
    else if i == 0 && pyIsdigit line && !(line.contains ',') then loadLinesFrom (i + 1) rest
    else
      match parseDataLine line with
      | some s => s :: loadLinesFrom (i + 1) rest
      | none => loadLinesFrom (i + 1) rest

/-- `load_students` applied to the text of the data file. -/
def load_students (text : List Char) : List Student :=
  loadLinesFrom 0 (pySplitlines text)

/-- The f-string `f"{s.code},{s.name},{s.cw1},{s.cw2},{s.cw3},{s.exam}"`. -/
def serStudent (s : Student) : List Char :=
  intToChars s.code ++ ',' ::
    (s.name ++ ',' ::
      (intToChars s.cw1 ++ ',' ::
        (intToChars s.cw2 ++ ',' ::
          (intToChars s.cw3 ++ ',' :: intToChars s.exam))))

/-- The list of lines `save_students` writes: leading count line, then
one comma-joined line per record in order. -/
def saveLines (students : List Student) : List (List Char) :=
  natToChars students.length :: students.map serStudent

/-- `save_students`: the text written to the data file. -/
def save_students (students : List Student) : List Char :=
  joinLines (saveLines students)

/-- Structured results of the mutating roster operations.  In the source
these surface as `messagebox.showerror` dialogs on the rejected paths. -/
inductive StoreError
  | duplicateCode
  | notFound
deriving DecidableEq

/-- First record with the given code (the `int(query) == s.code` branch
of `view_individual`, which breaks at the first match). -/
def findByCode (l : List Student) (c : Int) : Option Student :=
  l.find? (fun s => s.code == c)

/-- `add_student` core: reject a duplicate code, else append.  An error
leaves the roster component unchanged, as the source never mutates on
that path. -/
def add_student (l : List Student) (s : Student) : Option StoreError × List Student :=
  if l.any (fun st => st.code == s.code) then (some .duplicateCode, l)
  else (none, l ++ [s])

/-- `delete_student` core: `[x for x in students if x.code != s.code]`.
Modelled from the spec: the `NotFound` failure for an absent code — in
the source the target is picked from a selection dialog listing only
records present in the roster, so the absent case has no code of its
own. -/
def delete_student (l : List Student) (c : Int) : Option StoreError × List Student :=
  if l.any (fun st => st.code == c) then (none, l.filter (fun st => !(st.code == c)))
  else (some .notFound, l)

/-- The update loop: replace the first record whose code is `c`. -/
def replaceFirstByCode : List Student → Int → Student → List Student
  | [], _, _ => []
  | st :: rest, c, s =>
    if st.code == c then s :: rest else st :: replaceFirstByCode rest c s

/-- `update_student` core: duplicate check from the source
(`s.code != s0.code and any(st.code == s.code ...)`), then the
replace-first loop.  Modelled from the spec: the `NotFound` failure for
an absent `oldCode` — in the source the target comes from a selection
dialog listing only records present in the roster, so the absent case
has no code of its own. -/
def update_student (l : List Student) (oldCode : Int) (s : Student) :
    Option StoreError × List Student :=
  if s.code != oldCode && l.any (fun st => st.code == s.code) then (some .duplicateCode, l)
  else if l.any (fun st => st.code == oldCode) then (none, replaceFirstByCode l oldCode s)
  else (some .notFound, l)

/-- Ascending comparison used by `sort(key=lambda s: s.percent)`. -/
abbrev percentLe (a b : Student) : Prop := a.percent ≤ b.percent

/-- Descending comparison used by `sort(..., reverse=True)` (stable). -/
abbrev percentGe (a b : Student) : Prop := b.percent ≤ a.percent

instance : IsTotal Student percentLe := ⟨fun a b => le_total a.percent b.percent⟩

instance : IsTrans Student percentLe := ⟨fun _ _ _ h1 h2 => le_trans h1 h2⟩

instance : IsTotal Student percentGe := ⟨fun a b => le_total b.percent a.percent⟩

instance : IsTrans Student percentGe := ⟨fun _ _ _ h1 h2 => le_trans h2 h1⟩

/-- `sort_records`: Python's `list.sort` is a stable sort; modelled by
the stable `List.insertionSort`. -/
def sort_records (asc : Bool) (l : List Student) : List Student :=
  if asc then List.insertionSort percentLe l else List.insertionSort percentGe l

/-- `show_highest`: `max(students, key=lambda x: x.total)` keeps the
first of equally-scored records; `none` on the empty roster. -/
def show_highest : List Student → Option Student
  | [] => none
  | s :: rest => some (rest.foldl (fun best x => if best.total < x.total then x else best) s)

/-- `show_lowest`: `min(students, key=lambda x: x.total)`. -/
def show_lowest : List Student → Option Student
  | [] => none
  | s :: rest => some (rest.foldl (fun best x => if x.total < best.total then x else best) s)

/-- Little-endian value of a digit list (proof helper for `digitsToNat`). -/
def valRev : List Char → Nat
  | [] => 0
  | c :: cs => (c.toNat - 48) + 10 * valRev cs

/-- The documented field ranges: code 1000–9999, coursework marks 0–20,
exam 0–100, name non-empty. -/
def ValidRecord (s : Student) : Prop :=
  1000 ≤ s.code ∧ s.code ≤ 9999 ∧ s.name ≠ [] ∧
  0 ≤ s.cw1 ∧ s.cw1 ≤ 20 ∧ 0 ≤ s.cw2 ∧ s.cw2 ≤ 20 ∧ 0 ≤ s.cw3 ∧ s.cw3 ≤ 20 ∧
  0 ≤ s.exam ∧ s.exam ≤ 100

/-- A name the text format can represent faithfully: no comma (field
separator), no line-break character, and no leading or trailing
whitespace (the loader strips each field). -/
def CleanName (l : List Char) : Prop :=
  pyStrip l = l ∧ ∀ c ∈ l, (c == ',') = false ∧ isLineBreak c = false

/-- No two roster records share a code. -/
def DistinctCodes (l : List Student) : Prop :=
  List.Pairwise (fun a b => a.code ≠ b.code) l

/-- `m` is the first record of `l` attaining the maximum `total`. -/
def FirstMax (l : List Student) (m : Student) : Prop :=
  ∃ l₁ l₂, l = l₁ ++ m :: l₂ ∧ (∀ x ∈ l₁, x.total < m.total) ∧ ∀ x ∈ l₂, x.total ≤ m.total

/-- `m` is the first record of `l` attaining the minimum `total`. -/
def FirstMin (l : List Student) (m : Student) : Prop :=
  ∃ l₁ l₂, l = l₁ ++ m :: l₂ ∧ (∀ x ∈ l₁, m.total < x.total) ∧ ∀ x ∈ l₂, m.total ≤ x.total

/-- The worked example record `(1001, "Alice", 18, 19, 20, 90)`. -/
def aliceRec : Student := ⟨1001, "Alice".toList, 18, 19, 20, 90⟩

/-- A roster whose single record has a comma inside its name. -/
def commaNameRoster : List Student := [⟨1000, "a,b".toList, 0, 0, 0, 0⟩]

/-- A roster whose single record has a newline inside its name. -/
def newlineNameRoster : List Student := [⟨1000, "a\nb".toList, 0, 0, 0, 0⟩]

/-- Sample records and rosters used to instantiate the theorems. -/
def annRec : Student := ⟨1001, "Ann".toList, 1, 2, 3, 4⟩

def bobRec : Student := ⟨1002, "Bob".toList, 5, 6, 7, 8⟩

def rosterAB : List Student := [annRec, bobRec]

def caraRec : Student := ⟨1003, "Cara".toList, 9, 9, 9, 9⟩

def annRec2 : Student := ⟨1001, "Ann".toList, 10, 10, 10, 50⟩

/-- A sample data-file text. -/
def exText : List Char := "1\n1001,Alice,18,19,20,90".toList

instance (s : Student) : Decidable (ValidRecord s) := by
  unfold ValidRecord
  infer_instance

instance (l : List Char) : Decidable (CleanName l) := by
  unfold CleanName
  infer_instance

instance (l : List Student) : Decidable (DistinctCodes l) := by
  unfold DistinctCodes
  exact List.instDecidablePairwise l

/-! ### Decimal digits and numerals -/

lemma digitChar_spec {n : Nat} (h : n < 10) :
    (Char.ofNat (48 + n)).toNat = 48 + n ∧ (Char.ofNat (48 + n)).isDigit = true := by
  revert h; revert n; decide

lemma isDigit_bounds {c : Char} (h : c.isDigit = true) : 48 ≤ c.toNat ∧ c.toNat ≤ 57 := by
  simp [Char.isDigit, Char.le_def] at h
  exact ⟨h.1, h.2⟩

lemma not_space_of_digit {c : Char} (h : c.isDigit = true) : pyIsSpace c = false := by
  have hb := isDigit_bounds h
  simp only [pyIsSpace, Bool.or_eq_false_iff, Bool.and_eq_false_iff, beq_eq_false_iff_ne,
    ne_eq, decide_eq_false_iff_not, not_le]
  omega

lemma not_break_of_digit {c : Char} (h : c.isDigit = true) : isLineBreak c = false := by
  have hb := isDigit_bounds h
  simp only [isLineBreak, Bool.or_eq_false_iff, beq_eq_false_iff_ne, ne_eq]
  omega

lemma digit_ne_of_toNat {c d : Char} (h : c.toNat ≠ d.toNat) : c ≠ d := by
  intro hcd; exact h (by rw [hcd])

lemma digit_not_special {c : Char} (h : c.isDigit = true) :
    c ≠ ',' ∧ c ≠ '+' ∧ c ≠ '-' ∧ c ≠ '_' := by
  have hb := isDigit_bounds h
  refine ⟨digit_ne_of_toNat ?_, digit_ne_of_toNat ?_, digit_ne_of_toNat ?_,
    digit_ne_of_toNat ?_⟩ <;> simp <;> omega

lemma foldl_digits_reverse (l : List Char) (a : Nat) :
    (l.reverse).foldl (fun a c => 10 * a + (c.toNat - 48)) a = a * 10 ^ l.length + valRev l := by
  induction l generalizing a with
  | nil => simp [valRev]
  | cons c cs ih =>
    simp only [List.reverse_cons, List.foldl_append, List.foldl_cons, List.foldl_nil, ih,
      valRev, List.length_cons]
    ring

lemma valRev_digitsRevFuel : ∀ fuel n, n ≤ fuel → valRev (digitsRevFuel fuel n) = n := by
  intro fuel
  induction fuel with
  | zero =>
    intro n h
    have : n = 0 := Nat.le_zero.mp h
    simp [digitsRevFuel, valRev, this]
  | succ f ih =>
    intro n h
    by_cases h0 : n = 0
    · simp [digitsRevFuel, h0, valRev]
    · have h10 : n % 10 < 10 := Nat.mod_lt _ (by omega)
      have hchar := digitChar_spec h10
      have hdiv : n / 10 ≤ f := by
        have : n / 10 < n := Nat.div_lt_self (by omega) (by omega)
        omega
      simp only [digitsRevFuel, h0, if_false, valRev, hchar.1, ih _ hdiv]
      omega

lemma digitsRevFuel_digits : ∀ fuel n, ∀ c ∈ digitsRevFuel fuel n, c.isDigit = true := by
  intro fuel
  induction fuel with
  | zero => intro n c hc; simp [digitsRevFuel] at hc
  | succ f ih =>
    intro n c hc
    by_cases h0 : n = 0
    · simp [digitsRevFuel, h0] at hc
    · simp only [digitsRevFuel, h0, if_false, List.mem_cons] at hc
      rcases hc with hc | hc
      · exact hc ▸ (digitChar_spec (Nat.mod_lt _ (by omega))).2
      · exact ih _ c hc

lemma natToChars_ne_nil (n : Nat) : natToChars n ≠ [] := by
  by_cases h0 : n = 0
  · simp [natToChars, h0]
  · simp only [natToChars, h0, if_false, ne_eq, List.reverse_eq_nil_iff]
    have : n - 1 + 1 = n := by omega
    rw [← this]
    simp [digitsRevFuel, h0, this]

lemma natToChars_digits {n : Nat} : ∀ c ∈ natToChars n, c.isDigit = true := by
  intro c hc
  by_cases h0 : n = 0
  · simp [natToChars, h0] at hc
    simp [hc]
  · simp only [natToChars, h0, if_false, List.mem_reverse] at hc
    exact digitsRevFuel_digits n n c hc

lemma digitsToNat_natToChars (n : Nat) : digitsToNat (natToChars n) = n := by
  by_cases h0 : n = 0
  · simp [natToChars, h0, digitsToNat]
  · simp only [natToChars, h0, if_false, digitsToNat]
    rw [foldl_digits_reverse]
    simp [valRev_digitsRevFuel n n le_rfl]

/-! ### Stripping, splitting and integer parsing -/

lemma dropWhile_eq_self_of_head {p : Char → Bool} :
    ∀ {l : List Char}, (∀ c ∈ l.head?, p c = false) → List.dropWhile p l = l
  | [], _ => rfl
  | c :: rest, h => by
    have hc : p c = false := h c (by simp)
    simp [List.dropWhile_cons, hc]

lemma pyStrip_eq_self_of_ends {l : List Char}
    (h1 : ∀ c ∈ l.head?, pyIsSpace c = false)
    (h2 : ∀ c ∈ l.getLast?, pyIsSpace c = false) : pyStrip l = l := by
  unfold pyStrip
  rw [dropWhile_eq_self_of_head h1]
  rw [dropWhile_eq_self_of_head (by simpa [List.head?_reverse] using h2)]
  exact l.reverse_reverse

lemma pyStrip_eq_self_of_all {l : List Char}
    (h : ∀ c ∈ l, pyIsSpace c = false) : pyStrip l = l := by
  refine pyStrip_eq_self_of_ends (fun c hc => ?_) (fun c hc => ?_)
  · exact h c (List.mem_of_mem_head? hc)
  · exact h c (List.mem_of_mem_getLast? hc)

lemma pyStrip_natToChars (n : Nat) : pyStrip (natToChars n) = natToChars n :=
  pyStrip_eq_self_of_all fun c hc => not_space_of_digit (natToChars_digits c hc)

lemma splitOnChar_ne_nil (sep : Char) : ∀ l, splitOnChar sep l ≠ []
  | [], h => by simp [splitOnChar] at h
  | c :: rest, h => by
    simp only [splitOnChar] at h
    rcases hrec : splitOnChar sep rest with _ | ⟨p, ps⟩
    · exact splitOnChar_ne_nil sep rest hrec
    · rw [hrec] at h
      by_cases hc : (c == sep) = true <;> simp [hc] at h

lemma splitOnChar_no_sep {sep : Char} :
    ∀ {l : List Char}, (∀ c ∈ l, (c == sep) = false) → splitOnChar sep l = [l]
  | [], _ => rfl
  | c :: rest, h => by
    have hrest := splitOnChar_no_sep (fun c hc => h c (List.mem_cons_of_mem _ hc))
    simp [splitOnChar, hrest, h c (List.mem_cons_self c rest)]

lemma splitOnChar_append {sep : Char} :
    ∀ {a : List Char} (rest : List Char), (∀ c ∈ a, (c == sep) = false) →
      splitOnChar sep (a ++ sep :: rest) = a :: splitOnChar sep rest
  | [], rest, _ => by
    simp only [List.nil_append, splitOnChar]
    rcases hrec : splitOnChar sep rest with _ | ⟨p, ps⟩
    · exact absurd hrec (splitOnChar_ne_nil sep rest)
    · simp
  | c :: a', rest, h => by
    have ih := splitOnChar_append rest (fun x hx => h x (List.mem_cons_of_mem _ hx))
    have hc : (c == sep) = false := h c (List.mem_cons_self c a')
    simp only [List.cons_append, splitOnChar, List.append_eq]
    rw [ih]
    simp [hc]

lemma noDoubleUnderscore_of_digits :
    ∀ {l : List Char}, (∀ c ∈ l, c.isDigit = true) → noDoubleUnderscore l = true
  | [], _ => rfl
  | c :: rest, h => by
    have hrest := noDoubleUnderscore_of_digits (fun x hx => h x (List.mem_cons_of_mem _ hx))
    have hc := (digit_not_special (h c (List.mem_cons_self c rest))).2.2.2
    simp only [noDoubleUnderscore, hrest, Bool.and_true]
    cases rest with
    | nil => rfl
    | cons d rest' => simp [hc]

lemma uDigitsValid_of_digits {l : List Char} (hne : l ≠ [])
    (h : ∀ c ∈ l, c.isDigit = true) : uDigitsValid l = true := by
  have hhead : (match l.head? with | some c => c.isDigit | none => false) = true := by
    cases l with
    | nil => exact absurd rfl hne
    | cons c rest => exact h c (List.mem_cons_self c rest)
  have hlast : (match l.getLast? with | some c => c.isDigit | none => false) = true := by
    rcases hl : l.getLast? with _ | c
    · rw [List.getLast?_eq_none_iff] at hl
      exact absurd hl hne
    · exact h c (List.mem_of_mem_getLast? hl)
  simp only [uDigitsValid, hhead, hlast, noDoubleUnderscore_of_digits h, Bool.and_true,
    Bool.and_eq_true, List.all_eq_true]
  constructor
  · simpa using hne
  · intro c hc
    simp [h c hc]

lemma filter_underscore_of_digits {l : List Char} (h : ∀ c ∈ l, c.isDigit = true) :
    l.filter (fun x => !(x == '_')) = l := by
  refine List.filter_eq_self.mpr fun c hc => ?_
  have := (digit_not_special (h c hc)).2.2.2
  simp [this]

lemma pythonInt_of_digits {l : List Char} (hne : l ≠ [])
    (h : ∀ c ∈ l, c.isDigit = true) : pythonInt l = some (Int.ofNat (digitsToNat l)) := by
  have hstrip : pyStrip l = l :=
    pyStrip_eq_self_of_all fun c hc => not_space_of_digit (h c hc)
  cases l with
  | nil => exact absurd rfl hne
  | cons c rest =>
    have hc := digit_not_special (h c (List.mem_cons_self c rest))
    have hplus : (c == '+') = false := by simp [hc.2.1]
    have hminus : (c == '-') = false := by simp [hc.2.2.1]
    simp only [pythonInt, hstrip, hplus, hminus, Bool.false_eq_true, if_false,
      uDigitsValid_of_digits hne h, if_true, filter_underscore_of_digits h]

lemma pythonInt_natToChars (n : Nat) : pythonInt (natToChars n) = some (Int.ofNat n) := by
  rw [pythonInt_of_digits (natToChars_ne_nil n) (fun c hc => natToChars_digits c hc),
    digitsToNat_natToChars]

lemma intToChars_nonneg {i : Int} (h : 0 ≤ i) : intToChars i = natToChars i.toNat := by
  simp [intToChars, not_lt.mpr h]

lemma pythonInt_intToChars {i : Int} (h : 0 ≤ i) : pythonInt (intToChars i) = some i := by
  rw [intToChars_nonneg h, pythonInt_natToChars]
  simp [Int.toNat_of_nonneg h]

/-! ### Splitting into lines undoes joining -/

lemma splitlinesGo_nil (acc : List Char) :
    splitlinesGo [] acc = if acc.isEmpty then [] else [acc.reverse] := rfl

lemma splitlinesGo_newline (rest acc : List Char) :
    splitlinesGo ('\n' :: rest) acc = acc.reverse :: splitlinesGo rest [] := rfl

lemma splitlinesGo_cons_not_break {c : Char} (rest acc : List Char)
    (h : isLineBreak c = false) :
    splitlinesGo (c :: rest) acc = splitlinesGo rest (c :: acc) := by
  have hcr : c ≠ '\r' := by
    intro hc
    subst hc
    simp [isLineBreak] at h
  rw [splitlinesGo.eq_def]
  split
  · simp_all
  · rename_i rest2 heq
    injection heq with h1 _
    exact absurd h1 hcr
  · rename_i heq
    injection heq with h1 h2
    subst h1
    subst h2
    simp [h]

lemma splitlinesGo_clean : ∀ (l t acc : List Char),
    (∀ c ∈ l, isLineBreak c = false) →
    splitlinesGo (l ++ '\n' :: t) acc = (acc.reverse ++ l) :: splitlinesGo t []
  | [], t, acc, _ => by simp [splitlinesGo_newline]
  | c :: l', t, acc, h => by
    have hc := h c (List.mem_cons_self c l')
    rw [List.cons_append, splitlinesGo_cons_not_break _ _ hc,
      splitlinesGo_clean l' t (c :: acc) (fun x hx => h x (List.mem_cons_of_mem _ hx))]
    simp

lemma splitlinesGo_last : ∀ (l acc : List Char), (∀ c ∈ l, isLineBreak c = false) →
    splitlinesGo l acc = if (acc.reverse ++ l).isEmpty then [] else [acc.reverse ++ l]
  | [], acc, _ => by
    cases acc <;> simp [splitlinesGo_nil]
  | c :: l', acc, h => by
    rw [splitlinesGo_cons_not_break _ _ (h c (List.mem_cons_self c l')),
      splitlinesGo_last l' (c :: acc) (fun x hx => h x (List.mem_cons_of_mem _ hx))]
    simp

lemma pySplitlines_joinLines :
    ∀ ls : List (List Char),
      (∀ l ∈ ls, l ≠ [] ∧ ∀ c ∈ l, isLineBreak c = false) →
      pySplitlines (joinLines ls) = ls
  | [], _ => rfl
  | [l], h => by
    have hl := h l (List.mem_cons_self l [])
    unfold pySplitlines joinLines
    rw [splitlinesGo_last l [] hl.2]
    simp [hl.1]
  | l :: l2 :: ls, h => by
    have hl := h l (List.mem_cons_self l (l2 :: ls))
    have hrest := pySplitlines_joinLines (l2 :: ls) (fun x hx => h x (List.mem_cons_of_mem _ hx))
    unfold pySplitlines
    rw [show joinLines (l :: l2 :: ls) = l ++ '\n' :: joinLines (l2 :: ls) from rfl,
      splitlinesGo_clean l _ [] hl.2]
    simpa using hrest

/-! ### Serialization and its inverse -/

lemma intToChars_ne_nil (i : Int) : intToChars i ≠ [] := by
  unfold intToChars
  split
  · simp
  · exact natToChars_ne_nil _

lemma intToChars_chars {i : Int} : ∀ c ∈ intToChars i, c.isDigit = true ∨ c = '-' := by
  intro c hc
  unfold intToChars at hc
  split at hc
  · rcases List.mem_cons.mp hc with hc | hc
    · exact Or.inr hc
    · exact Or.inl (natToChars_digits c hc)
  · exact Or.inl (natToChars_digits c hc)

lemma intToChars_not_break {i : Int} : ∀ c ∈ intToChars i, isLineBreak c = false := by
  intro c hc
  rcases intToChars_chars c hc with h | h
  · exact not_break_of_digit h
  · rw [h]; rfl

lemma intToChars_no_comma {i : Int} : ∀ c ∈ intToChars i, (c == ',') = false := by
  intro c hc
  rcases intToChars_chars c hc with h | h
  · simp [(digit_not_special h).1]
  · rw [h]; rfl

lemma serStudent_ne_nil (s : Student) : serStudent s ≠ [] := by
  unfold serStudent
  intro h
  rcases List.append_eq_nil.mp h with ⟨h1, _⟩
  exact intToChars_ne_nil _ h1

lemma serStudent_mem {s : Student} {c : Char} (hc : c ∈ serStudent s) :
    c ∈ intToChars s.code ∨ c ∈ s.name ∨ c ∈ intToChars s.cw1 ∨ c ∈ intToChars s.cw2 ∨
      c ∈ intToChars s.cw3 ∨ c ∈ intToChars s.exam ∨ c = ',' := by
  simp only [serStudent, List.mem_append, List.mem_cons] at hc
  tauto

lemma serStudent_not_break {s : Student} (hname : ∀ c ∈ s.name, isLineBreak c = false) :
    ∀ c ∈ serStudent s, isLineBreak c = false := by
  intro c hc
  rcases serStudent_mem hc with h | h | h | h | h | h | h
  · exact intToChars_not_break c h
  · exact hname c h
  · exact intToChars_not_break c h
  · exact intToChars_not_break c h
  · exact intToChars_not_break c h
  · exact intToChars_not_break c h
  · rw [h]; rfl

lemma serStudent_head? (s : Student) : (serStudent s).head? = (intToChars s.code).head? :=
  List.head?_append_of_ne_nil _ (intToChars_ne_nil _)

lemma getLast?_cons_of_ne_nil {b : List Char} (c : Char) (h : b ≠ []) :
    (c :: b).getLast? = b.getLast? := by
  rw [show c :: b = [c] ++ b from rfl, List.getLast?_append_of_ne_nil _ h]

lemma serStudent_getLast? (s : Student) :
    (serStudent s).getLast? = (intToChars s.exam).getLast? := by
  unfold serStudent
  rw [List.getLast?_append_of_ne_nil _ (by simp),
    getLast?_cons_of_ne_nil _ (by simp),
    List.getLast?_append_of_ne_nil _ (by simp),
    getLast?_cons_of_ne_nil _ (by simp [intToChars_ne_nil]),
    List.getLast?_append_of_ne_nil _ (by simp),
    getLast?_cons_of_ne_nil _ (by simp [intToChars_ne_nil]),
    List.getLast?_append_of_ne_nil _ (by simp),
    getLast?_cons_of_ne_nil _ (by simp [intToChars_ne_nil]),
    List.getLast?_append_of_ne_nil _ (by simp),
    getLast?_cons_of_ne_nil _ (intToChars_ne_nil _)]

lemma not_space_of_intToChars {i : Int} {c : Char} (hc : c ∈ intToChars i) :
    pyIsSpace c = false := by
  rcases intToChars_chars c hc with h | h
  · exact not_space_of_digit h
  · rw [h]; rfl

lemma pyStrip_serStudent (s : Student) : pyStrip (serStudent s) = serStudent s := by
  refine pyStrip_eq_self_of_ends (fun c hc => ?_) (fun c hc => ?_)
  · rw [serStudent_head?] at hc
    exact not_space_of_intToChars (List.mem_of_mem_head? hc)
  · rw [serStudent_getLast?] at hc
    exact not_space_of_intToChars (List.mem_of_mem_getLast? hc)

lemma pyStrip_intToChars (i : Int) : pyStrip (intToChars i) = intToChars i :=
  pyStrip_eq_self_of_all fun c hc => not_space_of_intToChars hc

lemma splitOnChar_serStudent (s : Student)
    (hname : ∀ c ∈ s.name, (c == ',') = false) :
    splitOnChar ',' (serStudent s) =
      [intToChars s.code, s.name, intToChars s.cw1, intToChars s.cw2, intToChars s.cw3,
        intToChars s.exam] := by
  unfold serStudent
  rw [splitOnChar_append _ intToChars_no_comma,
    splitOnChar_append _ hname,
    splitOnChar_append _ intToChars_no_comma,
    splitOnChar_append _ intToChars_no_comma,
    splitOnChar_append _ intToChars_no_comma,
    splitOnChar_no_sep intToChars_no_comma]

lemma parseDataLine_serStudent (s : Student)
    (hname : pyStrip s.name = s.name) (hnc : ∀ c ∈ s.name, (c == ',') = false)
    (h0 : 0 ≤ s.code) (h1 : 0 ≤ s.cw1) (h2 : 0 ≤ s.cw2) (h3 : 0 ≤ s.cw3) (h4 : 0 ≤ s.exam) :
    parseDataLine (serStudent s) = some s := by
  unfold parseDataLine
  rw [splitOnChar_serStudent s hnc]
  simp only [List.map, pyStrip_intToChars, hname]
  rw [pythonInt_intToChars h0, pythonInt_intToChars h1, pythonInt_intToChars h2,
    pythonInt_intToChars h3, pythonInt_intToChars h4]

lemma contains_comma_eq_false {ln : List Char} (h : ∀ c ∈ ln, c.isDigit = true) :
    (ln.contains ',') = false := by
  rw [List.contains_eq_any_beq]
  refine Bool.eq_false_iff.mpr fun hc => ?_
  rw [List.any_eq_true] at hc
  obtain ⟨x, hx, hbeq⟩ := hc
  exact (digit_not_special (h x hx)).1 ((beq_iff_eq.mp hbeq).symm)

lemma isEmpty_eq_false_of_ne_nil {l : List Char} (h : l ≠ []) : l.isEmpty = false := by
  cases l with
  | nil => exact absurd rfl h
  | cons c rest => rfl

lemma loadLinesFrom_map_ser :
    ∀ (l : List Student) (i : Nat),
      (∀ s ∈ l, CleanName s.name ∧ 0 ≤ s.code ∧ 0 ≤ s.cw1 ∧ 0 ≤ s.cw2 ∧ 0 ≤ s.cw3 ∧
        0 ≤ s.exam) →
      loadLinesFrom (i + 1) (l.map serStudent) = l
  | [], _, _ => rfl
  | s :: l', i, h => by
    obtain ⟨hclean, h0, h1, h2, h3, h4⟩ := h s (List.mem_cons_self s l')
    have hne : (serStudent s).isEmpty = false := isEmpty_eq_false_of_ne_nil (serStudent_ne_nil s)
    have hi : ((i + 1) == 0) = false := by simp
    have hparse : parseDataLine (serStudent s) = some s :=
      parseDataLine_serStudent s hclean.1 (fun c hc => (hclean.2 c hc).1) h0 h1 h2 h3 h4
    simp only [List.map, loadLinesFrom, pyStrip_serStudent, hne, Bool.false_eq_true, if_false,
      hi, Bool.false_and, hparse]
    exact congrArg (s :: ·) (loadLinesFrom_map_ser l' (i + 1)
      (fun x hx => h x (List.mem_cons_of_mem _ hx)))

lemma loadLinesFrom_saveLines (l : List Student)
    (h : ∀ s ∈ l, CleanName s.name ∧ 0 ≤ s.code ∧ 0 ≤ s.cw1 ∧ 0 ≤ s.cw2 ∧ 0 ≤ s.cw3 ∧
      0 ≤ s.exam) :
    loadLinesFrom 0 (saveLines l) = l := by
  have hne : (natToChars l.length).isEmpty = false :=
    isEmpty_eq_false_of_ne_nil (natToChars_ne_nil _)
  have hdig : pyIsdigit (natToChars l.length) = true := by
    simp only [pyIsdigit, hne, Bool.not_false, Bool.true_and, List.all_eq_true]
    intro c hc
    simp [natToChars_digits c hc]
  have hnc : ((natToChars l.length).contains ',') = false :=
    contains_comma_eq_false fun c hc => natToChars_digits c hc
  simp only [saveLines, loadLinesFrom, pyStrip_natToChars, hne, Bool.false_eq_true, if_false,
    hdig, hnc, Bool.not_false, Bool.and_true, Bool.true_and, beq_self_eq_true, if_true,
    Nat.zero_add]
  exact loadLinesFrom_map_ser l 0 h

lemma saveLines_clean (l : List Student)
    (h : ∀ s ∈ l, ∀ c ∈ s.name, isLineBreak c = false) :
    ∀ ln ∈ saveLines l, ln ≠ [] ∧ ∀ c ∈ ln, isLineBreak c = false := by
  intro ln hln
  rcases List.mem_cons.mp hln with hln | hln
  · subst hln
    exact ⟨natToChars_ne_nil _, fun c hc => not_break_of_digit (natToChars_digits c hc)⟩
  · obtain ⟨s, hs, rfl⟩ := List.mem_map.mp hln
    exact ⟨serStudent_ne_nil s, serStudent_not_break (h s hs)⟩

lemma load_save (l : List Student)
    (h : ∀ s ∈ l, CleanName s.name ∧ 0 ≤ s.code ∧ 0 ≤ s.cw1 ∧ 0 ≤ s.cw2 ∧ 0 ≤ s.cw3 ∧
      0 ≤ s.exam) :
    load_students (save_students l) = l := by
  unfold load_students save_students
  rw [pySplitlines_joinLines (saveLines l)
    (saveLines_clean l fun s hs c hc => ((h s hs).1.2 c hc).2)]
  exact loadLinesFrom_saveLines l h

/-! ### Serializer claims -/

/-- C1 (amended): for a roster with pairwise-distinct codes, field values in
the documented ranges, and names the format can represent (no comma, no
line-break character, no leading or trailing whitespace), loading the text
produced by saving the roster yields the same set of records. -/
theorem c1_load_save_roundtrip (l : List Student)
    (hdist : DistinctCodes l)
    (hval : ∀ s ∈ l, ValidRecord s ∧ CleanName s.name) :
    ∀ s : Student, s ∈ load_students (save_students l) ↔ s ∈ l := by
  have heq : load_students (save_students l) = l := by
    refine load_save l fun s hs => ?_
    obtain ⟨hv, hc⟩ := hval s hs
    obtain ⟨ha, hb, hn, h1a, h1b, h2a, h2b, h3a, h3b, h4a, h4b⟩ := hv
    exact ⟨hc, by omega, by omega, by omega, by omega, by omega⟩
  rw [heq]
  exact fun s => Iff.rfl

/-- C1 counterexample: the roster `[(1000, "a,b", 0, 0, 0, 0)]` has distinct
codes and all field values in the documented ranges (its name is non-empty
text), yet saving and re-loading yields the empty roster: the comma inside
the name makes the data line split into 7 fields, so the loader skips it. -/
theorem c1_counterexample :
    DistinctCodes commaNameRoster ∧ (∀ s ∈ commaNameRoster, ValidRecord s) ∧
      ¬ (∀ s : Student, s ∈ load_students (save_students commaNameRoster) ↔
          s ∈ commaNameRoster) := by
  refine ⟨by decide, by decide, fun h => ?_⟩
  have hmem := (h ⟨1000, "a,b".toList, 0, 0, 0, 0⟩).mpr (by decide)
  revert hmem
  decide

/-- C1 witness: the amended round-trip theorem applied to the singleton
roster containing the worked-example record. -/
theorem c1_witness :
    DistinctCodes [aliceRec] ∧ (∀ s ∈ [aliceRec], ValidRecord s ∧ CleanName s.name) ∧
      (aliceRec ∈ load_students (save_students [aliceRec]) ↔ aliceRec ∈ [aliceRec]) :=
  ⟨by decide, by decide, c1_load_save_roundtrip [aliceRec] (by decide) (by decide) aliceRec⟩

/-- C2 (amended): for every roster whose names contain no line-break
character, the saved text splits into exactly one leading line holding the
decimal record count followed by one comma-joined line per record in roster
order. -/
theorem c2_save_shape (l : List Student)
    (hname : ∀ s ∈ l, ∀ c ∈ s.name, isLineBreak c = false) :
    pySplitlines (save_students l) = natToChars l.length :: l.map serStudent ∧
      (l.map serStudent).length = l.length ∧
      pythonInt (natToChars l.length) = some (Int.ofNat l.length) := by
  refine ⟨?_, List.length_map l serStudent, pythonInt_natToChars _⟩
  unfold save_students
  exact pySplitlines_joinLines (saveLines l) (saveLines_clean l hname)

/-- C2 counterexample: saving the one-record roster whose name contains a
newline emits three physical lines, not the claimed `count + 1 = 2`. -/
theorem c2_counterexample :
    (pySplitlines (save_students newlineNameRoster)).length = 3 ∧
      newlineNameRoster.length + 1 = 2 := by
  decide

/-- C2 witness: the amended save-shape theorem applied to a concrete
singleton roster. -/
theorem c2_witness :
    (∀ s ∈ [aliceRec], ∀ c ∈ s.name, isLineBreak c = false) ∧
      pySplitlines (save_students [aliceRec]) =
        natToChars ([aliceRec] : List Student).length :: [aliceRec].map serStudent :=
  ⟨by decide, (c2_save_shape [aliceRec] (by decide)).1⟩

lemma parseDataLine_nil : parseDataLine ([] : List Char) = none := rfl

lemma pyStrip_isEmpty_false_of_parse {raw : List Char} {s : Student}
    (hp : parseDataLine (pyStrip raw) = some s) : (pyStrip raw).isEmpty = false := by
  cases hq : pyStrip raw with
  | nil => rw [hq, parseDataLine_nil] at hp; cases hp
  | cons c rest => rfl

lemma loadLinesFrom_parse_step (i : Nat) {raw : List Char}
    {s : Student} (hp : parseDataLine (pyStrip raw) = some s) (rest : List (List Char)) :
    loadLinesFrom (i + 1) (raw :: rest) = s :: loadLinesFrom (i + 2) rest := by
  have hi : ((i + 1) == 0) = false := by simp
  simp only [loadLinesFrom, pyStrip_isEmpty_false_of_parse hp, Bool.false_eq_true, if_false,
    hi, Bool.false_and, hp]

lemma loadLinesFrom_count_skip {cnt : List Char} (hcnt : cnt ≠ [])
    (hdig : ∀ c ∈ cnt, c.isDigit = true) (rest : List (List Char)) :
    loadLinesFrom 0 (cnt :: rest) = loadLinesFrom 1 rest := by
  have hne : cnt.isEmpty = false := isEmpty_eq_false_of_ne_nil hcnt
  have hstrip : pyStrip cnt = cnt :=
    pyStrip_eq_self_of_all fun c hc => not_space_of_digit (hdig c hc)
  have hd : pyIsdigit cnt = true := by
    simp only [pyIsdigit, hne, Bool.not_false, Bool.true_and, List.all_eq_true]
    intro c hc
    simp [hdig c hc]
  have hnc : (cnt.contains ',') = false := contains_comma_eq_false hdig
  simp only [loadLinesFrom, hstrip, hne, Bool.false_eq_true, if_false, hd, hnc,
    Bool.not_false, Bool.and_true, Bool.true_and, beq_self_eq_true, if_true]

/-- C7: the loader skips a first line made of digits (whatever number it
spells — the value is never compared with the actual row count): a file
whose first line is any digit string followed by 3 well-formed data lines
loads exactly those 3 records. -/
theorem c7_count_line_ignored (cnt r1 r2 r3 : List Char) (s1 s2 s3 : Student)
    (hcnt : cnt ≠ []) (hdig : ∀ c ∈ cnt, c.isDigit = true)
    (hb1 : ∀ c ∈ r1, isLineBreak c = false) (hb2 : ∀ c ∈ r2, isLineBreak c = false)
    (hb3 : ∀ c ∈ r3, isLineBreak c = false)
    (hp1 : parseDataLine (pyStrip r1) = some s1)
    (hp2 : parseDataLine (pyStrip r2) = some s2)
    (hp3 : parseDataLine (pyStrip r3) = some s3) :
    load_students (joinLines [cnt, r1, r2, r3]) = [s1, s2, s3] := by
  have hne : ∀ r : List Char, ∀ s : Student, parseDataLine (pyStrip r) = some s → r ≠ [] := by
    intro r s hp hnil
    rw [hnil] at hp
    rw [show pyStrip ([] : List Char) = [] from rfl, parseDataLine_nil] at hp
    cases hp
  unfold load_students
  rw [pySplitlines_joinLines [cnt, r1, r2, r3] ?clean]
  case clean =>
    intro ln hln
    simp only [List.mem_cons, List.not_mem_nil, or_false] at hln
    rcases hln with rfl | rfl | rfl | rfl
    · exact ⟨hcnt, fun c hc => not_break_of_digit (hdig c hc)⟩
    · exact ⟨hne _ _ hp1, hb1⟩
    · exact ⟨hne _ _ hp2, hb2⟩
    · exact ⟨hne _ _ hp3, hb3⟩
  rw [loadLinesFrom_count_skip hcnt hdig,
    loadLinesFrom_parse_step 0 hp1,
    loadLinesFrom_parse_step 1 hp2,
    loadLinesFrom_parse_step 2 hp3]
  rfl

/-- C7 witness: the count line `"2"` with three well-formed data lines —
three records load even though the count line says two. -/
theorem c7_witness :
    load_students
        (joinLines ["2".toList, "1001,Ann,1,2,3,4".toList, "1002,Bob,5,6,7,8".toList,
          "1003,Cara,9,9,9,9".toList]) = [annRec, bobRec, caraRec] :=
  c7_count_line_ignored "2".toList _ _ _ annRec bobRec caraRec (by decide) (by decide)
    (by decide) (by decide) (by decide) (by decide) (by decide) (by decide)

lemma loadLinesFrom_sound :
    ∀ (lines : List (List Char)) (i : Nat),
      (loadLinesFrom i lines).length ≤ lines.length ∧
        ∀ s ∈ loadLinesFrom i lines, ∃ raw ∈ lines, parseDataLine (pyStrip raw) = some s
  | [], i => by simp [loadLinesFrom]
  | raw :: rest, i => by
    have ih := loadLinesFrom_sound rest (i + 1)
    by_cases hb : (pyStrip raw).isEmpty = true
    · rw [show loadLinesFrom i (raw :: rest) = loadLinesFrom (i + 1) rest by
        simp [loadLinesFrom, hb]]
      exact ⟨le_trans ih.1 (by simp), fun s hs =>
        (ih.2 s hs).imp fun x hx => ⟨List.mem_cons_of_mem _ hx.1, hx.2⟩⟩
    · by_cases hc : (i == 0 && pyIsdigit (pyStrip raw) && !((pyStrip raw).contains ',')) = true
      · rw [show loadLinesFrom i (raw :: rest) = loadLinesFrom (i + 1) rest by
          simp only [loadLinesFrom]
          rw [if_neg (by simp_all), if_pos hc]]
        exact ⟨le_trans ih.1 (by simp), fun s hs =>
          (ih.2 s hs).imp fun x hx => ⟨List.mem_cons_of_mem _ hx.1, hx.2⟩⟩
      · cases hp : parseDataLine (pyStrip raw) with
        | none =>
          rw [show loadLinesFrom i (raw :: rest) = loadLinesFrom (i + 1) rest by
            simp only [loadLinesFrom]
            rw [if_neg (by simp_all), if_neg (by simp_all), hp]]
          exact ⟨le_trans ih.1 (by simp), fun s hs =>
            (ih.2 s hs).imp fun x hx => ⟨List.mem_cons_of_mem _ hx.1, hx.2⟩⟩
        | some s' =>
          rw [show loadLinesFrom i (raw :: rest) = s' :: loadLinesFrom (i + 1) rest by
            simp only [loadLinesFrom]
            rw [if_neg (by simp_all), if_neg (by simp_all), hp]]
          refine ⟨by simpa using Nat.succ_le_succ ih.1, fun s hs => ?_⟩
          rcases List.mem_cons.mp hs with rfl | hs
          · exact ⟨raw, List.mem_cons_self raw rest, hp⟩
          · exact (ih.2 s hs).imp fun x hx => ⟨List.mem_cons_of_mem _ hx.1, hx.2⟩

/-- C10: loading is total on arbitrary text — it is a function returning a
roster for every input, producing at most one record per physical line, and
every returned record comes from a line whose 6 fields parsed successfully;
all other lines (blank, wrong field count, failed integer parse) are
skipped. -/
theorem c10_load_total (text : List Char) :
    (load_students text).length ≤ (pySplitlines text).length ∧
      ∀ s ∈ load_students text,
        ∃ raw ∈ pySplitlines text, parseDataLine (pyStrip raw) = some s :=
  loadLinesFrom_sound (pySplitlines text) 0

/-- C10 witness: on a concrete text the loaded record is traced back to a
successfully parsed line. -/
theorem c10_witness :
    ∃ raw ∈ pySplitlines exText, parseDataLine (pyStrip raw) = some aliceRec :=
  (c10_load_total exText).2 aliceRec (by decide)

/-! ### Roster store claims -/

/-- C4: `add` rejects a duplicate code leaving the roster unchanged, and
otherwise appends the record at the end; looking the code up afterwards
returns exactly the added record. -/
theorem c4_add_student (l : List Student) (s : Student) :
    ((∃ st ∈ l, st.code = s.code) → add_student l s = (some .duplicateCode, l)) ∧
      ((∀ st ∈ l, st.code ≠ s.code) →
        add_student l s = (none, l ++ [s]) ∧ findByCode (l ++ [s]) s.code = some s) := by
  constructor
  · rintro ⟨st, hst, hcode⟩
    have hany : l.any (fun st => st.code == s.code) = true :=
      List.any_eq_true.mpr ⟨st, hst, beq_iff_eq.mpr hcode⟩
    simp [add_student, hany]
  · intro h
    have hany : l.any (fun st => st.code == s.code) = false := by
      refine Bool.eq_false_iff.mpr fun hc => ?_
      obtain ⟨st, hst, hb⟩ := List.any_eq_true.mp hc
      exact h st hst (beq_iff_eq.mp hb)
    refine ⟨by simp [add_student, hany], ?_⟩
    unfold findByCode
    rw [List.find?_append,
      List.find?_eq_none.mpr fun x hx => by simp [h x hx]]
    simp

/-- C4 witness: adding a fresh code to a two-record roster succeeds and the
added record is found by its code. -/
theorem c4_witness :
    add_student rosterAB caraRec = (none, rosterAB ++ [caraRec]) ∧
      findByCode (rosterAB ++ [caraRec]) caraRec.code = some caraRec :=
  (c4_add_student rosterAB caraRec).2 (by decide)

/-- C5: `delete` fails with `NotFound` on an absent code leaving the roster
unchanged; on a present code it removes exactly the records with that code,
keeping the remaining records in their relative order, and a subsequent
lookup of the code returns none. -/
theorem c5_delete_student (l : List Student) (c : Int) :
    ((∀ st ∈ l, st.code ≠ c) → delete_student l c = (some .notFound, l)) ∧
      ((∃ st ∈ l, st.code = c) →
        delete_student l c = (none, l.filter (fun st => !(st.code == c))) ∧
          List.Sublist (l.filter (fun st => !(st.code == c))) l ∧
          findByCode (l.filter (fun st => !(st.code == c))) c = none ∧
          (∀ x ∈ l, x.code ≠ c → x ∈ l.filter (fun st => !(st.code == c))) ∧
          ∀ x ∈ l.filter (fun st => !(st.code == c)), x.code ≠ c) := by
  constructor
  · intro h
    have hany : l.any (fun st => st.code == c) = false := by
      refine Bool.eq_false_iff.mpr fun hc => ?_
      obtain ⟨st, hst, hb⟩ := List.any_eq_true.mp hc
      exact h st hst (beq_iff_eq.mp hb)
    simp [delete_student, hany]
  · rintro ⟨st, hst, hcode⟩
    have hany : l.any (fun st => st.code == c) = true :=
      List.any_eq_true.mpr ⟨st, hst, beq_iff_eq.mpr hcode⟩
    refine ⟨by simp [delete_student, hany], List.filter_sublist l, ?_, ?_, ?_⟩
    · refine List.find?_eq_none.mpr fun x hx => ?_
      have := (List.mem_filter.mp hx).2
      simpa using this
    · intro x hx hne
      exact List.mem_filter.mpr ⟨hx, by simp [hne]⟩
    · intro x hx
      have := (List.mem_filter.mp hx).2
      simpa using this

/-- C5 witness: deleting a present code from a two-record roster succeeds
and the code is no longer found. -/
theorem c5_witness :
    delete_student rosterAB 1001 = (none, rosterAB.filter (fun st => !(st.code == 1001))) ∧
      findByCode (rosterAB.filter (fun st => !(st.code == 1001))) 1001 = none := by
  have h := (c5_delete_student rosterAB 1001).2 (by decide)
  exact ⟨h.1, h.2.2.1⟩

lemma replaceFirstByCode_append (s : Student) (oldCode : Int) :
    ∀ (l₁ : List Student) (old : Student) (l₂ : List Student), old.code = oldCode →
      (∀ x ∈ l₁, x.code ≠ oldCode) →
      replaceFirstByCode (l₁ ++ old :: l₂) oldCode s = l₁ ++ s :: l₂
  | [], old, l₂, hold, _ => by simp [replaceFirstByCode, hold]
  | x :: l₁', old, l₂, hold, hfirst => by
    have hx : (x.code == oldCode) = false := by
      simp [hfirst x (List.mem_cons_self x l₁')]
    simp only [List.cons_append, replaceFirstByCode, hx, Bool.false_eq_true, if_false]
    exact congrArg (x :: ·) (replaceFirstByCode_append s oldCode l₁' old l₂ hold
      fun y hy => hfirst y (List.mem_cons_of_mem _ hy))

/-- C3: `update` rejects a renamed code that collides with an existing
record, fails with `NotFound` when the old code is absent, and otherwise
replaces the first record carrying the old code in place, keeping its
position, and succeeds. -/
theorem c3_update_student (l : List Student) (oldCode : Int) (s : Student) :
    ((s.code ≠ oldCode ∧ ∃ st ∈ l, st.code = s.code) →
      update_student l oldCode s = (some .duplicateCode, l)) ∧
      (¬(s.code ≠ oldCode ∧ ∃ st ∈ l, st.code = s.code) → (∀ st ∈ l, st.code ≠ oldCode) →
        update_student l oldCode s = (some .notFound, l)) ∧
      (¬(s.code ≠ oldCode ∧ ∃ st ∈ l, st.code = s.code) →
        ∀ l₁ old l₂, l = l₁ ++ old :: l₂ → old.code = oldCode →
          (∀ x ∈ l₁, x.code ≠ oldCode) →
          update_student l oldCode s = (none, l₁ ++ s :: l₂)) := by
  refine ⟨?_, ?_, ?_⟩
  · rintro ⟨hne, st, hst, hcode⟩
    have hcond : (s.code != oldCode && l.any fun st => st.code == s.code) = true := by
      simp only [Bool.and_eq_true, bne_iff_ne, ne_eq]
      exact ⟨hne, List.any_eq_true.mpr ⟨st, hst, beq_iff_eq.mpr hcode⟩⟩
    simp [update_student, hcond]
  · intro hnd h
    have hcond : (s.code != oldCode && l.any fun st => st.code == s.code) = false := by
      by_cases hA : s.code = oldCode
      · simp [hA]
      · have hB : (l.any fun st => st.code == s.code) = false := by
          refine Bool.eq_false_iff.mpr fun hc => ?_
          obtain ⟨st, hst, hb⟩ := List.any_eq_true.mp hc
          exact hnd ⟨hA, st, hst, beq_iff_eq.mp hb⟩
        simp [hB]
    have hany : (l.any fun st => st.code == oldCode) = false := by
      refine Bool.eq_false_iff.mpr fun hc => ?_
      obtain ⟨st, hst, hb⟩ := List.any_eq_true.mp hc
      exact h st hst (beq_iff_eq.mp hb)
    simp [update_student, hcond, hany]
  · intro hnd l₁ old l₂ hdecomp hold hfirst
    have hcond : (s.code != oldCode && l.any fun st => st.code == s.code) = false := by
      by_cases hA : s.code = oldCode
      · simp [hA]
      · have hB : (l.any fun st => st.code == s.code) = false := by
          refine Bool.eq_false_iff.mpr fun hc => ?_
          obtain ⟨st, hst, hb⟩ := List.any_eq_true.mp hc
          exact hnd ⟨hA, st, hst, beq_iff_eq.mp hb⟩
        simp [hB]
    have hany : (l.any fun st => st.code == oldCode) = true := by
      refine List.any_eq_true.mpr ⟨old, ?_, beq_iff_eq.mpr hold⟩
      rw [hdecomp]
      simp
    rw [hdecomp] at hcond hany ⊢
    simp only [update_student, hcond, Bool.false_eq_true, if_false, hany, if_true]
    rw [replaceFirstByCode_append s oldCode l₁ old l₂ hold hfirst]

/-- C3 witness: replacing the first record (same code, new marks) in a
two-record roster succeeds and keeps its position. -/
theorem c3_witness :
    update_student rosterAB 1001 annRec2 = (none, [annRec2, bobRec]) :=
  (c3_update_student rosterAB 1001 annRec2).2.2 (by decide) [] annRec [bobRec] rfl
    (by decide) (by decide)

/-! ### Sorting -/

lemma orderedInsert_filter_percent (q : ℚ) (x : Student) :
    ∀ m : List Student,
      (List.orderedInsert percentLe x m).filter (fun s => decide (s.percent = q)) =
        if x.percent = q then x :: m.filter (fun s => decide (s.percent = q))
        else m.filter (fun s => decide (s.percent = q))
  | [] => by
    by_cases hx : x.percent = q <;> simp [List.orderedInsert, List.filter_cons, hx]
  | y :: ys => by
    by_cases hxy : percentLe x y
    · rw [List.orderedInsert, if_pos hxy]
      by_cases hx : x.percent = q <;> simp [List.filter_cons, hx]
    · rw [List.orderedInsert, if_neg hxy]
      have hyx : y.percent < x.percent := lt_of_not_le hxy
      by_cases hx : x.percent = q
      · have hy : ¬(y.percent = q) := by rw [← hx]; exact ne_of_lt hyx
        simp [List.filter_cons, hy, hx, orderedInsert_filter_percent q x ys]
      · by_cases hy : y.percent = q <;>
          simp [List.filter_cons, hy, hx, orderedInsert_filter_percent q x ys]

lemma insertionSort_filter_percent (q : ℚ) :
    ∀ l : List Student,
      (List.insertionSort percentLe l).filter (fun s => decide (s.percent = q)) =
        l.filter (fun s => decide (s.percent = q))
  | [] => rfl
  | a :: l => by
    rw [show List.insertionSort percentLe (a :: l) =
        List.orderedInsert percentLe a (List.insertionSort percentLe l) from rfl,
      orderedInsert_filter_percent q a _]
    by_cases ha : a.percent = q <;>
      simp [List.filter_cons, ha, insertionSort_filter_percent q l]

/-- C6: `sort_records true` sorts by percent non-decreasingly, is stable
(the records holding any fixed percent value appear in their original
order), and running the same sort twice, in either direction, equals
running it once. -/
theorem c6_sort_records (l : List Student) :
    List.Sorted (fun a b : ℚ => a ≤ b) ((sort_records true l).map Student.percent) ∧
      (∀ q : ℚ, (sort_records true l).filter (fun s => decide (s.percent = q)) =
        l.filter (fun s => decide (s.percent = q))) ∧
      ∀ b : Bool, sort_records b (sort_records b l) = sort_records b l := by
  refine ⟨?_, ?_, ?_⟩
  · have h := List.sorted_insertionSort percentLe l
    simp only [sort_records, if_true]
    exact List.pairwise_map.mpr h
  · intro q
    simp only [sort_records, if_true]
    exact insertionSort_filter_percent q l
  · intro b
    cases b
    · simp only [sort_records, Bool.false_eq_true, if_false]
      exact List.Sorted.insertionSort_eq (List.sorted_insertionSort percentGe l)
    · simp only [sort_records, if_true]
      exact List.Sorted.insertionSort_eq (List.sorted_insertionSort percentLe l)

/-! ### Derived fields and grades -/

/-- C8: the derived fields satisfy their defining equations, the grade is
determined by the fixed thresholds on percent, and the worked example
`(1001, "Alice", 18, 19, 20, 90)` has total 147, percent 91.875 (≈ 91.9)
and grade "A". -/
theorem c8_derived_fields :
    (∀ s : Student,
      s.cw_total = s.cw1 + s.cw2 + s.cw3 ∧ s.total = s.cw_total + s.exam ∧
        s.percent = (s.total : ℚ) / 160 * 100 ∧
        (s.grade = "A" ↔ 70 ≤ s.percent) ∧
        (s.grade = "B" ↔ 60 ≤ s.percent ∧ s.percent < 70) ∧
        (s.grade = "C" ↔ 50 ≤ s.percent ∧ s.percent < 60) ∧
        (s.grade = "D" ↔ 40 ≤ s.percent ∧ s.percent < 50) ∧
        (s.grade = "F" ↔ s.percent < 40)) ∧
      aliceRec.total = 147 ∧ aliceRec.percent = 735 / 8 ∧ aliceRec.grade = "A" := by
  have hgrade : ∀ s : Student,
      (s.grade = "A" ↔ 70 ≤ s.percent) ∧
      (s.grade = "B" ↔ 60 ≤ s.percent ∧ s.percent < 70) ∧
      (s.grade = "C" ↔ 50 ≤ s.percent ∧ s.percent < 60) ∧
      (s.grade = "D" ↔ 40 ≤ s.percent ∧ s.percent < 50) ∧
      (s.grade = "F" ↔ s.percent < 40) := by
    intro s
    unfold Student.grade
    split_ifs with h1 h2 h3 h4 <;>
      refine ⟨?_, ?_, ?_, ?_, ?_⟩ <;>
      constructor <;>
      intro hh <;>
      first
        | exact absurd hh (by decide)
        | exact hh.elim (fun a b => absurd a (by assumption))
        | (exfalso; push_neg at *; linarith)
        | (constructor <;> linarith)
        | linarith
  have hp : aliceRec.percent = 735 / 8 := by
    norm_num [aliceRec, Student.percent, Student.total, Student.cw_total]
  refine ⟨fun s => ⟨rfl, rfl, rfl, hgrade s⟩, by decide, hp, ?_⟩
  have := ((hgrade aliceRec).1).mpr (by rw [hp]; norm_num)
  exact this

/-! ### Highest and lowest totals -/

lemma foldl_max_firstMax :
    ∀ (rest : List Student) (s : Student),
      FirstMax (s :: rest)
        (rest.foldl (fun best x => if best.total < x.total then x else best) s)
  | [], s => ⟨[], [], rfl, by simp, by simp⟩
  | x :: rest', s => by
    simp only [List.foldl_cons]
    by_cases hsx : s.total < x.total
    · rw [if_pos hsx]
      have h := foldl_max_firstMax rest' x
      set m := List.foldl (fun best x => if best.total < x.total then x else best) x rest'
        with hm
      obtain ⟨l₁, l₂, heq, hlt, hle⟩ := h
      cases l₁ with
      | nil =>
        simp only [List.nil_append] at heq
        injection heq with hx hrest
        refine ⟨[s], l₂, by rw [hrest, ← hx]; simp, ?_, hle⟩
        intro y hy
        rcases List.mem_singleton.mp hy with rfl
        rw [← hx]
        exact hsx
      | cons a l₁' =>
        simp only [List.cons_append] at heq
        injection heq with hx hrest
        subst hx
        refine ⟨s :: x :: l₁', l₂, by rw [hrest]; simp, ?_, hle⟩
        intro y hy
        rcases List.mem_cons.mp hy with rfl | hy
        · exact lt_trans hsx (hlt x (List.mem_cons_self x l₁'))
        · rcases List.mem_cons.mp hy with rfl | hy
          · exact hlt y (List.mem_cons_self y l₁')
          · exact hlt y (List.mem_cons_of_mem _ hy)
    · rw [if_neg hsx]
      have hxs : x.total ≤ s.total := le_of_not_lt hsx
      have h := foldl_max_firstMax rest' s
      set m := List.foldl (fun best x => if best.total < x.total then x else best) s rest'
        with hm
      obtain ⟨l₁, l₂, heq, hlt, hle⟩ := h
      cases l₁ with
      | nil =>
        simp only [List.nil_append] at heq
        injection heq with hs hrest
        refine ⟨[], x :: l₂, by rw [hrest, ← hs]; simp, by simp, ?_⟩
        intro y hy
        rcases List.mem_cons.mp hy with rfl | hy
        · rw [← hs]
          exact hxs
        · exact hle y hy
      | cons a l₁' =>
        simp only [List.cons_append] at heq
        injection heq with hs hrest
        subst hs
        have hsm := hlt s (List.mem_cons_self s l₁')
        refine ⟨s :: x :: l₁', l₂, by rw [hrest]; simp, ?_, hle⟩
        intro y hy
        rcases List.mem_cons.mp hy with rfl | hy
        · exact hsm
        · rcases List.mem_cons.mp hy with rfl | hy
          · exact lt_of_le_of_lt hxs hsm
          · exact hlt y (List.mem_cons_of_mem _ hy)

lemma foldl_min_firstMin :
    ∀ (rest : List Student) (s : Student),
      FirstMin (s :: rest)
        (rest.foldl (fun best x => if x.total < best.total then x else best) s)
  | [], s => ⟨[], [], rfl, by simp, by simp⟩
  | x :: rest', s => by
    simp only [List.foldl_cons]
    by_cases hxs : x.total < s.total
    · rw [if_pos hxs]
      have h := foldl_min_firstMin rest' x
      set m := List.foldl (fun best x => if x.total < best.total then x else best) x rest'
        with hm
      obtain ⟨l₁, l₂, heq, hlt, hle⟩ := h
      cases l₁ with
      | nil =>
        simp only [List.nil_append] at heq
        injection heq with hx hrest
        refine ⟨[s], l₂, by rw [hrest, ← hx]; simp, ?_, hle⟩
        intro y hy
        rcases List.mem_singleton.mp hy with rfl
        rw [← hx]
        exact hxs
      | cons a l₁' =>
        simp only [List.cons_append] at heq
        injection heq with hx hrest
        subst hx
        refine ⟨s :: x :: l₁', l₂, by rw [hrest]; simp, ?_, hle⟩
        intro y hy
        rcases List.mem_cons.mp hy with rfl | hy
        · exact lt_trans (hlt x (List.mem_cons_self x l₁')) hxs
        · rcases List.mem_cons.mp hy with rfl | hy
          · exact hlt y (List.mem_cons_self y l₁')
          · exact hlt y (List.mem_cons_of_mem _ hy)
    · rw [if_neg hxs]
      have hsx : s.total ≤ x.total := le_of_not_lt hxs
      have h := foldl_min_firstMin rest' s
      set m := List.foldl (fun best x => if x.total < best.total then x else best) s rest'
        with hm
      obtain ⟨l₁, l₂, heq, hlt, hle⟩ := h
      cases l₁ with
      | nil =>
        simp only [List.nil_append] at heq
        injection heq with hs hrest
        refine ⟨[], x :: l₂, by rw [hrest, ← hs]; simp, by simp, ?_⟩
        intro y hy
        rcases List.mem_cons.mp hy with rfl | hy
        · rw [← hs]
          exact hsx
        · exact hle y hy
      | cons a l₁' =>
        simp only [List.cons_append] at heq
        injection heq with hs hrest
        subst hs
        have hsm := hlt s (List.mem_cons_self s l₁')
        refine ⟨s :: x :: l₁', l₂, by rw [hrest]; simp, ?_, hle⟩
        intro y hy
        rcases List.mem_cons.mp hy with rfl | hy
        · exact hsm
        · rcases List.mem_cons.mp hy with rfl | hy
          · exact lt_of_lt_of_le hsm hsx
          · exact hlt y (List.mem_cons_of_mem _ hy)

/-- C9: on the empty roster both queries return none; on a non-empty roster
`show_highest` returns the first record attaining the maximum total and
`show_lowest` the first record attaining the minimum total. -/
theorem c9_highest_lowest (l : List Student) :
    (l = [] → show_highest l = none ∧ show_lowest l = none) ∧
      (l ≠ [] →
        (∃ m, show_highest l = some m ∧ FirstMax l m) ∧
          ∃ m, show_lowest l = some m ∧ FirstMin l m) := by
  constructor
  · rintro rfl
    exact ⟨rfl, rfl⟩
  · intro hne
    cases l with
    | nil => exact absurd rfl hne
    | cons s rest =>
      exact ⟨⟨_, rfl, foldl_max_firstMax rest s⟩, ⟨_, rfl, foldl_min_firstMin rest s⟩⟩

/-- C9 witness: on a concrete two-record roster both queries return a
record that is first-best for its total. -/
theorem c9_witness :
    (∃ m, show_highest rosterAB = some m ∧ FirstMax rosterAB m) ∧
      ∃ m, show_lowest rosterAB = some m ∧ FirstMin rosterAB m :=
  (c9_highest_lowest rosterAB).2 (by decide)

end StudentManager
